import Mathlib

/-!
# logox: evaluation of propositional formula trees and truth-table enumeration

A shallow embedding of `main.go`: the token kinds, the `Node` tree, the
recursive `Node.evaluate`, and the enumeration loop of `main`.

* A Go `map[string]bool` is an association list with unique keys
  (`Context`), read with `Context.get` and written with `Context.set`.
* `log.Fatalf` / `log.Fatalln` end the process: an evaluation that reaches
  one of them ends as `Ended.stopped`, carrying the call site.
* `fmt.Printf` appends one string to the standard output, which is
  threaded through the evaluation as a list of strings.
* Go `int` is taken to be 64 bits wide, two's complement (`wrapInt`).
-/

set_option autoImplicit false

namespace Logox

/-! ## Tokens -/

/-- The Go declaration `type Token int`. -/
abbrev Token := Int

def ILLEGAL : Token := 0
def EOF : Token := 1
def WS : Token := 2
def SYMBOL : Token := 3
def IMPLICATION : Token := 4
def OR : Token := 5
def AND : Token := 6
def NOT : Token := 7
def NOR : Token := 8
def NAND : Token := 9
def XOR : Token := 10
def TRUE : Token := 11
def FALSE : Token := 12

/-! ## Nodes -/

/-- The Go struct `Node`: a token, a name and the child nodes. -/
structure Node where
  token : Token
  name : String
  nodes : List Node

/-! ## Contexts -/

/-- The Go type `map[string]bool`, as an association list with unique keys. -/
abbrev Context := List (String × Bool)

/-- The two-result map read `val, exist := context[name]`. -/
def Context.get : Context → String → Option Bool
  | [], _ => none
  | (k, v) :: rest, name => if k = name then some v else Context.get rest name

/-- The map write `context[name] = val`: update in place or add a new key. -/
def Context.set : Context → String → Bool → Context
  | [], name, val => [(name, val)]
  | (k, v) :: rest, name, val =>
    if k = name then (k, val) :: rest else (k, v) :: Context.set rest name val

/-- The keys of a map. -/
def Context.keys (c : Context) : List String := c.map Prod.fst

/-! ## Outcomes of an evaluation -/

/-- The places where an evaluation stops the program. The first five are the
`log.Fatal` call sites of `evaluate`; the last one is the run-time panic of
an index expression `n.nodes[i]` with `i` out of range. -/
inductive Failure where
  /-- `log.Fatalf("SYMBOL %q cannot be found\n", n.name)` -/
  | symbolNotFound (name : String)
  /-- `log.Fatalln("Cannot negate more than one term")` -/
  | notArity
  /-- `log.Fatalln("Implication can only have two terms")` -/
  | implicationArity
  /-- `log.Fatalln("OR can only have two terms")` -/
  | orArity
  /-- `log.Fatalln("AND can only have two terms")` -/
  | andArity
  /-- index out of range -/
  | indexOutOfRange
deriving DecidableEq, Repr

/-- How a piece of the evaluator ends: it returns a value, or the
program stops at a failure site. -/
inductive Ended (α : Type) where
  | returned (a : α)
  | stopped (f : Failure)
deriving DecidableEq, Repr

/-- The result of running a piece of the evaluator: the strings printed on
standard output, in order, and how it ended. -/
structure Eval (α : Type) where
  out : List String
  res : Ended α
deriving DecidableEq, Repr

/-- Return without printing. -/
def Eval.ret {α : Type} (a : α) : Eval α := ⟨[], .returned a⟩

/-- Stop the program at a failure site. -/
def Eval.stop {α : Type} (f : Failure) : Eval α := ⟨[], .stopped f⟩

/-- One `fmt.Printf` call. -/
def Eval.print (s : String) : Eval Unit := ⟨[s], .returned ()⟩

/-- Sequencing: run `x`; unless it stopped, run `f` on its value. -/
def Eval.andThen {α β : Type} (x : Eval α) (f : α → Eval β) : Eval β :=
  match x.res with
  | .stopped e => ⟨x.out, .stopped e⟩
  | .returned a => ⟨x.out ++ (f a).out, (f a).res⟩

/-- The verb `%t` of `fmt.Printf`. -/
def fmtBool : Bool → String
  | true => "true"
  | false => "false"

/-- The text of
`fmt.Printf("Failed implication \"%s(%t) => %s(%t)\"\n", pn, a, qn, b)`. -/
def failedImplication (pn : String) (a : Bool) (qn : String) (b : Bool) : String :=
  "Failed implication \"" ++ pn ++ "(" ++ fmtBool a ++ ") => " ++ qn ++ "(" ++ fmtBool b ++ ")\"\n"

/-- The field read `n.nodes[i].name`, with its range check. -/
def nameAt : List Node → Nat → Eval String
  | [], _ => Eval.stop .indexOutOfRange
  | c :: _, 0 => Eval.ret c.name
  | _ :: cs, i + 1 => nameAt cs i

/-! ## The evaluator -/

mutual

/-- The method `func (n *Node) evaluate(context map[string]bool) bool`.
The `switch n.token` is the chain of tests on `token`; `||` and `&&`
evaluate their right operand only when the left one does not decide. -/
def Node.evaluate : Node → Context → Eval Bool
  | ⟨token, name, nodes⟩, context =>
    if token = SYMBOL then
      match context.get name with
      | some val => Eval.ret val
      | none => Eval.stop (.symbolNotFound name)
    else if token = TRUE then Eval.ret true
    else if token = FALSE then Eval.ret false
    else if token = NOT then
      if nodes.length ≠ 1 then Eval.stop .notArity
      else (evaluateAt nodes 0 context).andThen fun a => Eval.ret (!a)
    else if token = IMPLICATION then
      if nodes.length ≠ 2 then Eval.stop .implicationArity
      else (evaluateAt nodes 0 context).andThen fun p =>
        if p = true then
          (evaluateAt nodes 1 context).andThen fun q =>
            if q = true then Eval.ret true
            else
              (nameAt nodes 0).andThen fun pn =>
              (evaluateAt nodes 0 context).andThen fun a =>
              (nameAt nodes 1).andThen fun qn =>
              (evaluateAt nodes 1 context).andThen fun b =>
              (Eval.print (failedImplication pn a qn b)).andThen fun _ =>
              Eval.ret false
        else Eval.ret true
    else if token = OR then
      if nodes.length ≠ 2 then Eval.stop .orArity
      else (evaluateAt nodes 0 context).andThen fun a =>
        if a then Eval.ret true else evaluateAt nodes 1 context
    else if token = AND then
      if nodes.length ≠ 2 then Eval.stop .andArity
      else (evaluateAt nodes 0 context).andThen fun a =>
        if a then evaluateAt nodes 1 context else Eval.ret false
    else Eval.ret false

/-- The call `n.nodes[i].evaluate(context)`: the index expression with its
range check, then the method call on the selected child. -/
def evaluateAt : List Node → Nat → Context → Eval Bool
  | [], _, _ => Eval.stop .indexOutOfRange
  | c :: _, 0, context => Node.evaluate c context
  | _ :: cs, i + 1, context => evaluateAt cs i context

end

/-! ## The enumeration loop of `main` -/

/-- A Go `int` value: the 64-bit two's complement reading of an integer. -/
def wrapInt (x : Int) : Int := (x + 2 ^ 63) % 2 ^ 64 - 2 ^ 63

/-- The shift `1 << k` on `int`. -/
def shiftLeftOne (k : Nat) : Int := wrapInt (2 ^ k)

/-- The condition `n&(1<<index) > 0`. -/
def bitSet (n : Int) (index : Nat) : Bool := decide (Int.land n (shiftLeftOne index) > 0)

/-- The inner loop
`for index, symbol := range symbols { context[symbol] = n&(1<<index) > 0 }`,
from position `index` on. -/
def assignFrom : List String → Nat → Int → Context → Context
  | [], _, _, context => context
  | symbol :: rest, index, n, context =>
    assignFrom rest (index + 1) n (context.set symbol (bitSet n index))

/-- One row of the table: the map that was handed to `evaluate` and what
the call printed and returned. -/
structure Row where
  context : Context
  eval : Eval Bool
deriving DecidableEq, Repr

/-- The body of `for n := 0; n < (1 << len(symbols)); n++`, run for the
counter values `n`, `n + 1`, ... as long as `steps` iterations remain. The
one map `context` is carried from each row to the next. A row whose
evaluation stops ends the program, so it is the last one. -/
def rowsFrom (ast : Node) (symbols : List String) : Nat → Int → Context → List Row
  | 0, _, _ => []
  | steps + 1, n, context =>
    let context1 := assignFrom symbols 0 n context
    let r := ast.evaluate context1
    match r.res with
    | .stopped _ => [⟨context1, r⟩]
    | .returned _ => ⟨context1, r⟩ :: rowsFrom ast symbols steps (n + 1) context1

/-- The loop bound `1 << len(symbols)`. -/
def loopBound (symbols : List String) : Int := shiftLeftOne symbols.length

/-- The rows of `main` for a tree and a list of symbols: the counter starts
at `0` over the empty map `make(map[string]bool)` and the loop runs while
`n < 1 << len(symbols)`, that is `loopBound symbols` times when the bound
is positive and not at all otherwise (the counter stays below `2 ^ 62`, so
`n++` does not wrap). -/
def mainRows (ast : Node) (symbols : List String) : List Row :=
  rowsFrom ast symbols (loopBound symbols).toNat 0 []

/-- The text of `fmt.Printf("%s=%t ", key, val)`. -/
def keyValueText (key : String) (val : Bool) : String :=
  key ++ "=" ++ fmtBool val ++ " "

/-- The text of `fmt.Printf("  \t Evaluating \"%s\" :: %t\n", name, result)`. -/
def evaluatingText (name : String) (result : Bool) : String :=
  "  \t Evaluating \"" ++ name ++ "\" :: " ++ fmtBool result ++ "\n"

/-- What one row puts on standard output: the prints of `evaluate`, then,
when it returned, one `key=value` print per map entry and the result line.
Go leaves the order in which `range` visits a map unspecified; `visit`
gives the order taken. -/
def rowOutput (visit : Context → List (String × Bool)) (label : String) (row : Row) :
    List String :=
  match row.eval.res with
  | .stopped _ => row.eval.out
  | .returned result =>
    row.eval.out ++ (visit row.context).map (fun kv => keyValueText kv.1 kv.2)
      ++ [evaluatingText label result]

/-- The standard output of `main` for a tree and a list of symbols. -/
def mainOutput (visit : Context → List (String × Bool)) (ast : Node)
    (symbols : List String) : List String :=
  ((mainRows ast symbols).map (rowOutput visit ast.name)).flatten

/-- The tree built in `main`: the AST for `p => q`. -/
def astExample : Node :=
  ⟨IMPLICATION, "p => q", [⟨SYMBOL, "p", []⟩, ⟨SYMBOL, "q", []⟩]⟩

/-- The list `var symbols = []string{"p", "q"}` of `main`. -/
def symbols : List String := ["p", "q"]

/-! ## Well-formed trees and the truth value of a formula -/

mutual

/-- Every node of the tree is a Symbol, True, False, Not, Implication, And
or Or node, every Not node has exactly one child and every Implication, And
and Or node has exactly two. -/
def Node.wellFormed : Node → Bool
  | ⟨token, _, nodes⟩ =>
    (decide (token = SYMBOL) || decide (token = TRUE) || decide (token = FALSE)
      || (decide (token = NOT) && decide (nodes.length = 1))
      || ((decide (token = IMPLICATION) || decide (token = AND) || decide (token = OR))
          && decide (nodes.length = 2)))
    && allWellFormed nodes

/-- Every tree of the list is well formed. -/
def allWellFormed : List Node → Bool
  | [] => true
  | c :: cs => c.wellFormed && allWellFormed cs

end

mutual

/-- The names of the Symbol nodes occurring in the tree. -/
def Node.symbolNames : Node → List String
  | ⟨token, name, nodes⟩ => (if token = SYMBOL then [name] else []) ++ allSymbolNames nodes

/-- The names of the Symbol nodes occurring in the trees of the list. -/
def allSymbolNames : List Node → List String
  | [] => []
  | c :: cs => c.symbolNames ++ allSymbolNames cs

end

/-- The context binds every symbol name occurring in the tree. -/
def Node.boundIn (n : Node) (context : Context) : Prop :=
  ∀ s ∈ n.symbolNames, (context.get s).isSome = true

instance (n : Node) (context : Context) : Decidable (n.boundIn context) := by
  unfold Node.boundIn
  infer_instance

/-- The standard propositional truth value of a formula under a context,
as the specification words it: a Symbol is the value bound to its name,
True and False are the constants, Not is negation, And is conjunction, Or is
disjunction and Implication(p, q) is (not p) or q. Trees that are not
formulas are given the value `false`. -/
def truthValue (context : Context) : Node → Bool
  | ⟨token, name, nodes⟩ =>
    if token = SYMBOL then (context.get name).getD false
    else if token = TRUE then true
    else if token = FALSE then false
    else if token = NOT then
      match nodes with
      | [p] => !(truthValue context p)
      | _ => false
    else if token = IMPLICATION then
      match nodes with
      | [p, q] => !(truthValue context p) || truthValue context q
      | _ => false
    else if token = AND then
      match nodes with
      | [p, q] => truthValue context p && truthValue context q
      | _ => false
    else if token = OR then
      match nodes with
      | [p, q] => truthValue context p || truthValue context q
      | _ => false
    else false

/-- The distinct names `x0`, `x1`, ..., used as a long list of symbols. -/
def variableNames (count : Nat) : List String :=
  (List.range count).map fun i => "x" ++ toString i

/-! ## The evaluator with the reporting removed -/

mutual

/-- The evaluator with the reporting removed: `evaluate` without the
`fmt.Printf` statement of its Implication case, and so without the second
evaluation of both children that computes the arguments of that statement.
Each child is evaluated at most once and nothing is printed. -/
def Node.evaluateQuiet : Node → Context → Eval Bool
  | ⟨token, name, nodes⟩, context =>
    if token = SYMBOL then
      match context.get name with
      | some val => Eval.ret val
      | none => Eval.stop (.symbolNotFound name)
    else if token = TRUE then Eval.ret true
    else if token = FALSE then Eval.ret false
    else if token = NOT then
      if nodes.length ≠ 1 then Eval.stop .notArity
      else (evaluateQuietAt nodes 0 context).andThen fun a => Eval.ret (!a)
    else if token = IMPLICATION then
      if nodes.length ≠ 2 then Eval.stop .implicationArity
      else (evaluateQuietAt nodes 0 context).andThen fun p =>
        if p = true then
          (evaluateQuietAt nodes 1 context).andThen fun q =>
            if q = true then Eval.ret true else Eval.ret false
        else Eval.ret true
    else if token = OR then
      if nodes.length ≠ 2 then Eval.stop .orArity
      else (evaluateQuietAt nodes 0 context).andThen fun a =>
        if a then Eval.ret true else evaluateQuietAt nodes 1 context
    else if token = AND then
      if nodes.length ≠ 2 then Eval.stop .andArity
      else (evaluateQuietAt nodes 0 context).andThen fun a =>
        if a then evaluateQuietAt nodes 1 context else Eval.ret false
    else Eval.ret false

/-- The call `n.nodes[i].evaluate(context)` of the evaluator with the
reporting removed. -/
def evaluateQuietAt : List Node → Nat → Context → Eval Bool
  | [], _, _ => Eval.stop .indexOutOfRange
  | c :: _, 0, context => Node.evaluateQuiet c context
  | _ :: cs, i + 1, context => evaluateQuietAt cs i context

end

/-! ## Basic facts about sequencing -/

@[simp] theorem Eval.ret_out {α : Type} (a : α) : (Eval.ret a).out = [] := rfl

@[simp] theorem Eval.ret_res {α : Type} (a : α) : (Eval.ret a).res = .returned a := rfl

@[simp] theorem Eval.stop_out {α : Type} (f : Failure) : (Eval.stop f : Eval α).out = [] := rfl

@[simp] theorem Eval.stop_res {α : Type} (f : Failure) :
    (Eval.stop f : Eval α).res = .stopped f := rfl

theorem Eval.andThen_returned {α β : Type} (x : Eval α) (f : α → Eval β) (a : α)
    (h : x.res = .returned a) :
    x.andThen f = ⟨x.out ++ (f a).out, (f a).res⟩ := by
  simp [Eval.andThen, h]

theorem Eval.andThen_stopped {α β : Type} (x : Eval α) (f : α → Eval β) (e : Failure)
    (h : x.res = .stopped e) :
    x.andThen f = ⟨x.out, .stopped e⟩ := by
  simp [Eval.andThen, h]

@[simp] theorem evaluateAt_zero (c : Node) (cs : List Node) (context : Context) :
    evaluateAt (c :: cs) 0 context = c.evaluate context := by
  simp [evaluateAt]

@[simp] theorem evaluateAt_one (c d : Node) (cs : List Node) (context : Context) :
    evaluateAt (c :: d :: cs) 1 context = d.evaluate context := by
  simp [evaluateAt]

@[simp] theorem nameAt_zero (c : Node) (cs : List Node) :
    nameAt (c :: cs) 0 = Eval.ret c.name := by
  simp [nameAt]

@[simp] theorem nameAt_one (c d : Node) (cs : List Node) :
    nameAt (c :: d :: cs) 1 = Eval.ret d.name := by
  simp [nameAt]

/-- Induction over trees: a property holds of every node as soon as it
holds of a node whenever it holds of all its children. -/
theorem Node.induct {P : Node → Prop}
    (step : ∀ token name nodes, (∀ c ∈ nodes, P c) → P ⟨token, name, nodes⟩) :
    ∀ n, P n := by
  intro n
  refine Node.rec (motive_1 := P) (motive_2 := fun l => ∀ c ∈ l, P c) ?_ ?_ ?_ n
  · intro token name nodes ih
    exact step token name nodes ih
  · intro c hc
    cases hc
  · intro head tail ihHead ihTail c hc
    rcases List.mem_cons.mp hc with h | h
    · exact h ▸ ihHead
    · exact ihTail c h

/-! ## The cases of `evaluate` -/

theorem evaluate_symbol (name : String) (nodes : List Node) (context : Context) :
    Node.evaluate ⟨SYMBOL, name, nodes⟩ context =
      match context.get name with
      | some val => Eval.ret val
      | none => Eval.stop (.symbolNotFound name) := by
  simp [Node.evaluate]

theorem evaluate_not (name : String) (p : Node) (context : Context) :
    Node.evaluate ⟨NOT, name, [p]⟩ context =
      (p.evaluate context).andThen fun a => Eval.ret (!a) := by
  simp [Node.evaluate, NOT, SYMBOL, TRUE, FALSE]

theorem evaluate_implication (name : String) (p q : Node) (context : Context) :
    Node.evaluate ⟨IMPLICATION, name, [p, q]⟩ context =
      (p.evaluate context).andThen fun a =>
        if a = true then
          (q.evaluate context).andThen fun b =>
            if b = true then Eval.ret true
            else
              (Eval.ret p.name).andThen fun pn =>
              (p.evaluate context).andThen fun a1 =>
              (Eval.ret q.name).andThen fun qn =>
              (q.evaluate context).andThen fun b1 =>
              (Eval.print (failedImplication pn a1 qn b1)).andThen fun _ =>
              Eval.ret false
        else Eval.ret true := by
  simp [Node.evaluate, NOT, SYMBOL, TRUE, FALSE, IMPLICATION]

theorem evaluate_or (name : String) (p q : Node) (context : Context) :
    Node.evaluate ⟨OR, name, [p, q]⟩ context =
      (p.evaluate context).andThen fun a =>
        if a then Eval.ret true else q.evaluate context := by
  simp [Node.evaluate, NOT, SYMBOL, TRUE, FALSE, IMPLICATION, OR]

theorem evaluate_and (name : String) (p q : Node) (context : Context) :
    Node.evaluate ⟨AND, name, [p, q]⟩ context =
      (p.evaluate context).andThen fun a =>
        if a then q.evaluate context else Eval.ret false := by
  simp [Node.evaluate, NOT, SYMBOL, TRUE, FALSE, IMPLICATION, OR, AND]

/-! ## Well-formedness and symbol names of children -/

theorem allWellFormed_mem {nodes : List Node} (h : allWellFormed nodes = true) :
    ∀ c ∈ nodes, c.wellFormed = true := by
  induction nodes with
  | nil => intro c hc; cases hc
  | cons d ds ih =>
    intro c hc
    simp only [allWellFormed, Bool.and_eq_true] at h
    rcases List.mem_cons.mp hc with rfl | hmem
    · exact h.1
    · exact ih h.2 c hmem

theorem mem_allSymbolNames {nodes : List Node} {c : Node} (hc : c ∈ nodes) {s : String}
    (hs : s ∈ c.symbolNames) : s ∈ allSymbolNames nodes := by
  induction nodes with
  | nil => cases hc
  | cons d ds ih =>
    simp only [allSymbolNames, List.mem_append]
    rcases List.mem_cons.mp hc with rfl | hmem
    · exact Or.inl hs
    · exact Or.inr (ih hmem)

theorem Node.boundIn_child {token : Token} {name : String} {nodes : List Node}
    {context : Context} (h : Node.boundIn ⟨token, name, nodes⟩ context) :
    ∀ c ∈ nodes, c.boundIn context := by
  intro c hc s hs
  apply h s
  simp only [Node.symbolNames, List.mem_append]
  exact Or.inr (mem_allSymbolNames hc hs)

/-- The result of a sequence whose first part returns. -/
theorem Eval.andThen_res_returned {α β : Type} (x : Eval α) (f : α → Eval β) (a : α)
    (h : x.res = .returned a) : (x.andThen f).res = (f a).res := by
  rw [Eval.andThen_returned x f a h]

/-- The result of the Implication case when both children return. -/
theorem implication_res (context : Context) (name : String) (p q : Node) (a b : Bool)
    (hp : (p.evaluate context).res = .returned a)
    (hq : (q.evaluate context).res = .returned b) :
    (Node.evaluate ⟨IMPLICATION, name, [p, q]⟩ context).res = .returned (!a || b) := by
  rw [evaluate_implication, Eval.andThen_res_returned _ _ a hp]
  cases a with
  | false => simp
  | true =>
    simp only [if_true]
    rw [Eval.andThen_res_returned _ _ b hq]
    cases b with
    | true => simp
    | false =>
      simp only [Bool.false_eq_true, if_false]
      rw [Eval.andThen_res_returned _ _ p.name rfl, Eval.andThen_res_returned _ _ true hp,
        Eval.andThen_res_returned _ _ q.name rfl, Eval.andThen_res_returned _ _ false hq,
        Eval.andThen_res_returned _ _ () rfl]
      simp

theorem and_res (context : Context) (name : String) (p q : Node) (a b : Bool)
    (hp : (p.evaluate context).res = .returned a)
    (hq : (q.evaluate context).res = .returned b) :
    (Node.evaluate ⟨AND, name, [p, q]⟩ context).res = .returned (a && b) := by
  rw [evaluate_and, Eval.andThen_res_returned _ _ a hp]
  cases a <;> simp [hq]

theorem or_res (context : Context) (name : String) (p q : Node) (a b : Bool)
    (hp : (p.evaluate context).res = .returned a)
    (hq : (q.evaluate context).res = .returned b) :
    (Node.evaluate ⟨OR, name, [p, q]⟩ context).res = .returned (a || b) := by
  rw [evaluate_or, Eval.andThen_res_returned _ _ a hp]
  cases a <;> simp [hq]

theorem not_res (context : Context) (name : String) (p : Node) (a : Bool)
    (hp : (p.evaluate context).res = .returned a) :
    (Node.evaluate ⟨NOT, name, [p]⟩ context).res = .returned (!a) := by
  rw [evaluate_not, Eval.andThen_res_returned _ _ a hp]
  simp

/-! ## Reading and writing a context -/

theorem Context.get_isSome_iff_mem_keys (context : Context) (name : String) :
    (context.get name).isSome = true ↔ name ∈ context.keys := by
  induction context with
  | nil => simp [Context.get, Context.keys]
  | cons kv rest ih =>
    obtain ⟨k, v⟩ := kv
    by_cases h : k = name
    · simp [Context.get, Context.keys, h]
    · have hne : ¬ name = k := fun e => h e.symm
      simp only [Context.keys] at ih
      simp [Context.get, Context.keys, h, hne, ih]

/-! ## The bit test of the enumeration -/

theorem wrapInt_of_small (x : Int) (h0 : 0 ≤ x) (h1 : x < 2 ^ 63) : wrapInt x = x := by
  unfold wrapInt
  rw [Int.emod_eq_of_lt (by omega) (by omega)]
  omega

theorem shiftLeftOne_of_le {k : Nat} (hk : k ≤ 62) : shiftLeftOne k = ((2 ^ k : Nat) : Int) := by
  unfold shiftLeftOne
  have hpow : (2 : Nat) ^ k ≤ 2 ^ 62 := Nat.pow_le_pow_right (by decide) hk
  have hcast : ((2 : Int) ^ k) = ((2 ^ k : Nat) : Int) := by push_cast; rfl
  rw [hcast]
  apply wrapInt_of_small
  · exact Int.ofNat_nonneg _
  · have : ((2 ^ k : Nat) : Int) ≤ ((2 ^ 62 : Nat) : Int) := Int.ofNat_le.mpr hpow
    norm_num at this ⊢
    omega

/-- For a counter value `n ≥ 0` and a position `index ≤ 62`, the condition
`n&(1<<index) > 0` says that bit `index` of `n` is set. -/
theorem bitSet_eq_testBit (n : Nat) {index : Nat} (hk : index ≤ 62) :
    bitSet (n : Int) index = n.testBit index := by
  unfold bitSet
  rw [shiftLeftOne_of_le hk]
  have hland : Int.land (n : Int) ((2 ^ index : Nat) : Int) = ((n &&& 2 ^ index : Nat) : Int) := rfl
  rw [hland, Nat.and_two_pow]
  cases hb : n.testBit index with
  | false => simp
  | true =>
    have : 0 < 2 ^ index := Nat.pos_pow_of_pos index (by decide)
    simp [this]

/-! ## The assignment built for a row -/

theorem Context.get_set (context : Context) (name : String) (val : Bool) (key : String) :
    (context.set name val).get key = if key = name then some val else context.get key := by
  induction context with
  | nil =>
    by_cases h : key = name
    · simp [Context.set, Context.get, h]
    · have hne : ¬ name = key := fun e => h e.symm
      simp [Context.set, Context.get, h, hne]
  | cons kv rest ih =>
    obtain ⟨k, v⟩ := kv
    by_cases hk : k = name
    · subst hk
      by_cases h : key = k
      · simp [Context.set, Context.get, h]
      · have hne : ¬ k = key := fun e => h e.symm
        simp [Context.set, Context.get, h, hne]
    · by_cases h : k = key
      · subst h
        simp [Context.set, Context.get, hk]
      · simp [Context.set, Context.get, hk, h, ih]

/-- A name that the inner loop does not write keeps its entry. -/
theorem assignFrom_get_of_not_mem (names : List String) (index : Nat) (n : Int)
    (context : Context) (key : String) (hkey : key ∉ names) :
    (assignFrom names index n context).get key = context.get key := by
  induction names generalizing index context with
  | nil => rfl
  | cons s rest ih =>
    have hne : key ≠ s := fun e => hkey (e ▸ List.mem_cons_self _ _)
    have hrest : key ∉ rest := fun hmem => hkey (List.mem_cons_of_mem _ hmem)
    rw [assignFrom, ih _ _ hrest, Context.get_set, if_neg hne]

/-- After the inner loop over distinct names, the name at position `k` is
bound to the bit test at position `index + k`, whatever the map held before. -/
theorem assignFrom_get (names : List String) (hnodup : names.Nodup) (index : Nat) (n : Int)
    (context : Context) (k : Nat) (hk : k < names.length) :
    (assignFrom names index n context).get (names.get ⟨k, hk⟩) = some (bitSet n (index + k)) := by
  induction names generalizing index context k with
  | nil => cases hk
  | cons s rest ih =>
    obtain ⟨hs, hrest⟩ := List.nodup_cons.mp hnodup
    cases k with
    | zero =>
      have hget : (s :: rest).get ⟨0, hk⟩ = s := rfl
      rw [hget, assignFrom, assignFrom_get_of_not_mem _ _ _ _ _ hs, Context.get_set, if_pos rfl]
      rfl
    | succ j =>
      have hj : j < rest.length := Nat.lt_of_succ_lt_succ hk
      have hget : (s :: rest).get ⟨j + 1, hk⟩ = rest.get ⟨j, hj⟩ := rfl
      rw [hget, assignFrom, ih hrest (index + 1) _ j hj]
      congr 2
      omega

/-- After the inner loop every name of the list is bound. -/
theorem assignFrom_isSome (names : List String) (index : Nat) (n : Int)
    (context : Context) (key : String)
    (hkey : key ∈ names ∨ (context.get key).isSome = true) :
    ((assignFrom names index n context).get key).isSome = true := by
  induction names generalizing index context with
  | nil =>
    rcases hkey with h | h
    · cases h
    · exact h
  | cons s rest ih =>
    rw [assignFrom]
    apply ih
    by_cases hmem : key ∈ rest
    · exact Or.inl hmem
    · right
      rw [Context.get_set]
      by_cases hks : key = s
      · simp [hks]
      · rw [if_neg hks]
        rcases hkey with h | h
        · rcases List.mem_cons.mp h with h1 | h1
          · exact absurd h1 hks
          · exact absurd h1 hmem
        · exact h

/-! ## The rows of the enumeration -/

theorem loopBound_of_le (names : List String) (hlen : names.length ≤ 62) :
    (loopBound names).toNat = 2 ^ names.length := by
  rw [loopBound, shiftLeftOne_of_le hlen, Int.toNat_ofNat]

/-- When the evaluation of the tree returns under every context that binds
the names, the loop started at counter value `n` with `steps` iterations to
go produces `steps` rows, and row `i` is the evaluation of the tree under the
map that the inner loop builds for the counter value `n + i`. -/
theorem rowsFrom_rows (ast : Node) (names : List String)
    (hret : ∀ c : Context, (∀ s ∈ names, (c.get s).isSome = true) →
      ∃ b, (ast.evaluate c).res = .returned b)
    (steps : Nat) (n : Int) (context : Context) :
    (rowsFrom ast names steps n context).length = steps ∧
      ∀ i, i < steps → ∃ c : Context,
        (rowsFrom ast names steps n context).get? i
          = some ⟨assignFrom names 0 (n + i) c, ast.evaluate (assignFrom names 0 (n + i) c)⟩ := by
  induction steps generalizing n context with
  | zero => exact ⟨rfl, fun i hi => absurd hi (Nat.not_lt_zero i)⟩
  | succ m ih =>
    obtain ⟨b, hb⟩ := hret (assignFrom names 0 n context)
      (fun s hs => assignFrom_isSome names 0 n context s (Or.inl hs))
    have hunfold : rowsFrom ast names (m + 1) n context =
        ⟨assignFrom names 0 n context, ast.evaluate (assignFrom names 0 n context)⟩ ::
          rowsFrom ast names m (n + 1) (assignFrom names 0 n context) := by
      simp [rowsFrom, hb]
    obtain ⟨hlen, hrows⟩ := ih (n + 1) (assignFrom names 0 n context)
    rw [hunfold]
    refine ⟨by simp [hlen], ?_⟩
    intro i hi
    cases i with
    | zero => exact ⟨context, by simp⟩
    | succ j =>
      obtain ⟨c, hc⟩ := hrows j (Nat.lt_of_succ_lt_succ hi)
      refine ⟨c, ?_⟩
      rw [List.get?_cons_succ, hc]
      have hcast : n + 1 + (j : Int) = n + ((j + 1 : Nat) : Int) := by push_cast; ring
      rw [hcast]

/-- The enumeration over at most 62 distinct names: when the evaluation of
the tree returns under every context that binds the names, `main` produces
exactly `2 ^ N` rows, and in row `i` the map handed to `evaluate` binds the
name at position `k` to bit `k` of `i`, least-significant bit first. -/
theorem mainRows_enumerates (ast : Node) (names : List String) (hnodup : names.Nodup)
    (hlen : names.length ≤ 62)
    (hret : ∀ c : Context, (∀ s ∈ names, (c.get s).isSome = true) →
      ∃ b, (ast.evaluate c).res = .returned b) :
    (mainRows ast names).length = 2 ^ names.length ∧
      ∀ i, i < 2 ^ names.length → ∃ row : Row,
        (mainRows ast names).get? i = some row ∧ row.eval = ast.evaluate row.context ∧
          ∀ k (hk : k < names.length),
            row.context.get (names.get ⟨k, hk⟩) = some (i.testBit k) := by
  obtain ⟨hlength, hrows⟩ := rowsFrom_rows ast names hret (2 ^ names.length) 0 []
  rw [mainRows, loopBound_of_le names hlen]
  refine ⟨hlength, ?_⟩
  intro i hi
  obtain ⟨c, hc⟩ := hrows i hi
  refine ⟨_, hc, rfl, ?_⟩
  intro k hk
  have hbit := assignFrom_get names hnodup 0 (0 + (i : Int)) c k hk
  rw [hbit, Nat.zero_add, Int.zero_add, bitSet_eq_testBit i (by omega)]

/-- Two counter values below `2 ^ N` that agree on the bits `0 .. N - 1` are
equal. -/
theorem eq_of_testBit_eq_below {N i j : Nat} (hi : i < 2 ^ N) (hj : j < 2 ^ N)
    (h : ∀ k, k < N → i.testBit k = j.testBit k) : i = j := by
  apply Nat.eq_of_testBit_eq
  intro k
  by_cases hk : k < N
  · exact h k hk
  · have hle : 2 ^ N ≤ 2 ^ k := Nat.pow_le_pow_right (by decide) (Nat.le_of_not_lt hk)
    rw [Nat.testBit_lt_two_pow (Nat.lt_of_lt_of_le hi hle),
      Nat.testBit_lt_two_pow (Nat.lt_of_lt_of_le hj hle)]

/-- Over at most 62 distinct names the maps of two different rows differ,
row `0` binds every name to `false` and row `2 ^ N - 1` binds every name to
`true`. -/
theorem mainRows_distinct_first_last (ast : Node) (names : List String)
    (hnodup : names.Nodup) (hlen : names.length ≤ 62)
    (hret : ∀ c : Context, (∀ s ∈ names, (c.get s).isSome = true) →
      ∃ b, (ast.evaluate c).res = .returned b) :
    (∀ i j ri rj, (mainRows ast names).get? i = some ri →
        (mainRows ast names).get? j = some rj → i ≠ j → ri.context ≠ rj.context) ∧
      (∀ r0, (mainRows ast names).get? 0 = some r0 →
        ∀ s ∈ names, r0.context.get s = some false) ∧
      (∀ r1, (mainRows ast names).get? (2 ^ names.length - 1) = some r1 →
        ∀ s ∈ names, r1.context.get s = some true) := by
  obtain ⟨hlength, hrows⟩ := mainRows_enumerates ast names hnodup hlen hret
  have hpos : 0 < 2 ^ names.length := Nat.pos_pow_of_pos _ (by decide)
  refine ⟨?_, ?_, ?_⟩
  · intro i j ri rj hi hj hij hctx
    have hi1 : i < 2 ^ names.length := by
      rw [← hlength]; exact (List.get?_eq_some.mp hi).1
    have hj1 : j < 2 ^ names.length := by
      rw [← hlength]; exact (List.get?_eq_some.mp hj).1
    obtain ⟨ri1, hri, -, hbi⟩ := hrows i hi1
    obtain ⟨rj1, hrj, -, hbj⟩ := hrows j hj1
    have e1 : ri1 = ri := Option.some.inj (hri.symm.trans hi)
    have e2 : rj1 = rj := Option.some.inj (hrj.symm.trans hj)
    subst e1 e2
    apply hij
    apply eq_of_testBit_eq_below hi1 hj1
    intro k hk
    have h1 := hbi k hk
    have h2 := hbj k hk
    rw [hctx] at h1
    exact Option.some.inj (h1.symm.trans h2)
  · intro r0 h0 s hs
    obtain ⟨r, hr, -, hb⟩ := hrows 0 hpos
    have e : r = r0 := Option.some.inj (hr.symm.trans h0)
    subst e
    obtain ⟨⟨k, hk⟩, rfl⟩ := List.mem_iff_get.mp hs
    simpa using hb k hk
  · intro r1 h1 s hs
    obtain ⟨r, hr, -, hb⟩ := hrows (2 ^ names.length - 1) (Nat.sub_lt hpos (by decide))
    have e : r = r1 := Option.some.inj (hr.symm.trans h1)
    subst e
    obtain ⟨⟨k, hk⟩, rfl⟩ := List.mem_iff_get.mp hs
    simpa [hk] using hb k hk

/-! ## Evaluation of the children -/

/-- The indexed call on a list of children gives the same result under two
contexts when every child does. -/
theorem evaluateAt_congr (nodes : List Node) (c1 c2 : Context)
    (h : ∀ c ∈ nodes, c.evaluate c1 = c.evaluate c2) (i : Nat) :
    evaluateAt nodes i c1 = evaluateAt nodes i c2 := by
  induction nodes generalizing i with
  | nil => simp [evaluateAt]
  | cons d ds ih =>
    cases i with
    | zero => simpa using h d (List.mem_cons_self _ _)
    | succ j =>
      simp only [evaluateAt]
      exact ih (fun c hc => h c (List.mem_cons_of_mem _ hc)) j

/-- A sequence does not end in an index-out-of-range stop when neither of its
parts does. -/
theorem Eval.andThen_inRange {α β : Type} (x : Eval α) (f : α → Eval β)
    (hx : x.res ≠ .stopped .indexOutOfRange)
    (hf : ∀ a, (f a).res ≠ .stopped .indexOutOfRange) :
    (x.andThen f).res ≠ .stopped .indexOutOfRange := by
  unfold Eval.andThen
  cases hres : x.res with
  | returned a => exact hf a
  | stopped e =>
    intro h
    apply hx
    rw [hres]
    simpa using h

/-! ## The evaluator with and without reporting -/

/-- The result of a sequence depends only on the result of its first part and
on the results of the continuation at the value the first part returns. -/
theorem Eval.andThen_res_congr {α β : Type} (x y : Eval α) (f g : α → Eval β)
    (hxy : x.res = y.res) (hfg : ∀ a, x.res = .returned a → (f a).res = (g a).res) :
    (x.andThen f).res = (y.andThen g).res := by
  unfold Eval.andThen
  rw [← hxy]
  cases hres : x.res with
  | returned a => exact hfg a hres
  | stopped e => rfl

theorem evaluateQuiet_not (name : String) (p : Node) (context : Context) :
    Node.evaluateQuiet ⟨NOT, name, [p]⟩ context =
      (p.evaluateQuiet context).andThen fun a => Eval.ret (!a) := by
  simp [Node.evaluateQuiet, evaluateQuietAt, NOT, SYMBOL, TRUE, FALSE]

theorem evaluateQuiet_implication (name : String) (p q : Node) (context : Context) :
    Node.evaluateQuiet ⟨IMPLICATION, name, [p, q]⟩ context =
      (p.evaluateQuiet context).andThen fun a =>
        if a = true then
          (q.evaluateQuiet context).andThen fun b =>
            if b = true then Eval.ret true else Eval.ret false
        else Eval.ret true := by
  simp [Node.evaluateQuiet, evaluateQuietAt, NOT, SYMBOL, TRUE, FALSE, IMPLICATION]

theorem evaluateQuiet_or (name : String) (p q : Node) (context : Context) :
    Node.evaluateQuiet ⟨OR, name, [p, q]⟩ context =
      (p.evaluateQuiet context).andThen fun a =>
        if a then Eval.ret true else q.evaluateQuiet context := by
  simp [Node.evaluateQuiet, evaluateQuietAt, NOT, SYMBOL, TRUE, FALSE, IMPLICATION, OR]

theorem evaluateQuiet_and (name : String) (p q : Node) (context : Context) :
    Node.evaluateQuiet ⟨AND, name, [p, q]⟩ context =
      (p.evaluateQuiet context).andThen fun a =>
        if a then q.evaluateQuiet context else Eval.ret false := by
  simp [Node.evaluateQuiet, evaluateQuietAt, NOT, SYMBOL, TRUE, FALSE, IMPLICATION, OR, AND]

/-- The Implication case ends the same way with and without the reporting
when its two children do. -/
theorem implication_res_eq_quiet (context : Context) (name : String) (p q : Node)
    (hp : (p.evaluate context).res = (p.evaluateQuiet context).res)
    (hq : (q.evaluate context).res = (q.evaluateQuiet context).res) :
    (Node.evaluate ⟨IMPLICATION, name, [p, q]⟩ context).res
      = (Node.evaluateQuiet ⟨IMPLICATION, name, [p, q]⟩ context).res := by
  cases hpr : (p.evaluate context).res with
  | stopped e =>
    rw [evaluate_implication, evaluateQuiet_implication,
      Eval.andThen_stopped _ _ e hpr, Eval.andThen_stopped _ _ e (hp ▸ hpr)]
  | returned a =>
    cases hqr : (q.evaluate context).res with
    | returned b =>
      rw [implication_res context name p q a b hpr hqr, evaluateQuiet_implication,
        Eval.andThen_res_returned _ _ a (hp ▸ hpr)]
      cases a with
      | false => simp
      | true =>
        simp only [if_true]
        rw [Eval.andThen_res_returned _ _ b (hq ▸ hqr)]
        cases b <;> simp
    | stopped e =>
      rw [evaluate_implication, evaluateQuiet_implication,
        Eval.andThen_res_returned _ _ a hpr, Eval.andThen_res_returned _ _ a (hp ▸ hpr)]
      cases a with
      | false => simp
      | true =>
        simp only [if_true]
        rw [Eval.andThen_stopped _ _ e hqr, Eval.andThen_stopped _ _ e (hq ▸ hqr)]

/-- Removing the reporting does not change how an evaluation ends: the
returned boolean, or the stop, is the same for every tree and context. -/
theorem evaluate_res_eq_quiet (n : Node) (context : Context) :
    (n.evaluate context).res = (n.evaluateQuiet context).res := by
  refine Node.induct (P := fun n =>
    (n.evaluate context).res = (n.evaluateQuiet context).res) ?_ n
  intro token name nodes ih
  by_cases h1 : token = SYMBOL
  · subst h1
    simp [Node.evaluate, Node.evaluateQuiet]
  by_cases h2 : token = TRUE
  · subst h2
    simp [Node.evaluate, Node.evaluateQuiet, TRUE, SYMBOL]
  by_cases h3 : token = FALSE
  · subst h3
    simp [Node.evaluate, Node.evaluateQuiet, TRUE, SYMBOL, FALSE]
  by_cases h4 : token = NOT
  · subst h4
    by_cases hlen : nodes.length = 1
    · obtain ⟨p, rfl⟩ := List.length_eq_one.mp hlen
      rw [evaluate_not, evaluateQuiet_not]
      exact Eval.andThen_res_congr _ _ _ _ (ih p (by simp)) (fun _ _ => rfl)
    · simp [Node.evaluate, Node.evaluateQuiet, hlen, NOT, SYMBOL, TRUE, FALSE]
  by_cases h5 : token = IMPLICATION
  · subst h5
    by_cases hlen : nodes.length = 2
    · obtain ⟨p, q, rfl⟩ := List.length_eq_two.mp hlen
      exact implication_res_eq_quiet context name p q (ih p (by simp)) (ih q (by simp))
    · simp [Node.evaluate, Node.evaluateQuiet, hlen, NOT, SYMBOL, TRUE, FALSE, IMPLICATION]
  by_cases h6 : token = OR
  · subst h6
    by_cases hlen : nodes.length = 2
    · obtain ⟨p, q, rfl⟩ := List.length_eq_two.mp hlen
      rw [evaluate_or, evaluateQuiet_or]
      refine Eval.andThen_res_congr _ _ _ _ (ih p (by simp)) (fun a _ => ?_)
      cases a with
      | false => simpa using ih q (by simp)
      | true => simp
    · simp [Node.evaluate, Node.evaluateQuiet, hlen, NOT, SYMBOL, TRUE, FALSE,
        IMPLICATION, OR]
  by_cases h7 : token = AND
  · subst h7
    by_cases hlen : nodes.length = 2
    · obtain ⟨p, q, rfl⟩ := List.length_eq_two.mp hlen
      rw [evaluate_and, evaluateQuiet_and]
      refine Eval.andThen_res_congr _ _ _ _ (ih p (by simp)) (fun a _ => ?_)
      cases a with
      | false => simp
      | true => simpa using ih q (by simp)
    · simp [Node.evaluate, Node.evaluateQuiet, hlen, NOT, SYMBOL, TRUE, FALSE,
        IMPLICATION, OR, AND]
  simp [Node.evaluate, Node.evaluateQuiet, h1, h2, h3, h4, h5, h6, h7]

/-! ## The one map reused across the rows -/

theorem Context.keys_set (context : Context) (name : String) (val : Bool) :
    (context.set name val).keys
      = if name ∈ context.keys then context.keys else context.keys ++ [name] := by
  induction context with
  | nil => simp [Context.set, Context.keys]
  | cons kv rest ih =>
    obtain ⟨k, v⟩ := kv
    simp only [Context.keys] at ih
    by_cases hk : k = name
    · subst hk
      simp [Context.set, Context.keys]
    · have hne : ¬ name = k := fun e => hk e.symm
      by_cases hmem : name ∈ List.map Prod.fst rest
      · simp only [Context.set, Context.keys, hk, if_false, List.map_cons, List.mem_cons, hne,
          hmem, or_true, if_true, false_or]
        rw [ih, if_pos hmem]
      · simp only [Context.set, Context.keys, hk, if_false, List.map_cons, List.mem_cons, hne,
          hmem, or_self, List.cons_append]
        rw [ih, if_neg hmem]

theorem Context.keys_set_of_mem (context : Context) (name : String) (val : Bool)
    (h : name ∈ context.keys) : (context.set name val).keys = context.keys := by
  rw [Context.keys_set, if_pos h]

theorem Context.nodup_keys_set (context : Context) (name : String) (val : Bool)
    (h : context.keys.Nodup) : (context.set name val).keys.Nodup := by
  rw [Context.keys_set]
  by_cases hmem : name ∈ context.keys
  · rw [if_pos hmem]
    exact h
  · rw [if_neg hmem]
    exact List.Nodup.append h (List.nodup_singleton name) (by simpa using hmem)

/-- Two maps with the same keys in the same order, each key once, and the
same value at every key are the same map. -/
theorem Context.ext_of_keys (c1 c2 : Context) (hkeys : c1.keys = c2.keys)
    (hnodup : c1.keys.Nodup) (hget : ∀ k ∈ c1.keys, c1.get k = c2.get k) : c1 = c2 := by
  induction c1 generalizing c2 with
  | nil =>
    cases c2 with
    | nil => rfl
    | cons kv rest => simp [Context.keys] at hkeys
  | cons kv1 rest1 ih =>
    cases c2 with
    | nil => simp [Context.keys] at hkeys
    | cons kv2 rest2 =>
      obtain ⟨k1, v1⟩ := kv1
      obtain ⟨k2, v2⟩ := kv2
      simp only [Context.keys, List.map_cons, List.cons.injEq] at hkeys
      obtain ⟨hk, hrest⟩ := hkeys
      subst hk
      simp only [Context.keys, List.map_cons, List.nodup_cons] at hnodup
      obtain ⟨hnot, hnd⟩ := hnodup
      have hv : v1 = v2 := by
        have := hget k1 (by simp [Context.keys])
        simpa [Context.get] using this
      subst hv
      have htail : rest1 = rest2 := by
        apply ih rest2 hrest hnd
        intro k hk
        have hne : ¬ k1 = k := fun e => hnot (e ▸ hk)
        have := hget k (by simp only [Context.keys, List.map_cons, List.mem_cons]; exact Or.inr hk)
        simpa [Context.get, hne] using this
      rw [htail]

theorem assignFrom_keys_of_subset (names : List String) (index : Nat) (n : Int)
    (context : Context) (h : ∀ s ∈ names, s ∈ context.keys) :
    (assignFrom names index n context).keys = context.keys := by
  induction names generalizing index context with
  | nil => rfl
  | cons s rest ih =>
    have hs : s ∈ context.keys := h s (List.mem_cons_self _ _)
    have hkeys := Context.keys_set_of_mem context s (bitSet n index) hs
    rw [assignFrom, ih, hkeys]
    intro t ht
    rw [hkeys]
    exact h t (List.mem_cons_of_mem _ ht)

/-- The keys after the inner loop depend only on the keys before it. -/
theorem assignFrom_keys_congr (names : List String) (i1 i2 : Nat) (n1 n2 : Int)
    (c1 c2 : Context) (h : c1.keys = c2.keys) :
    (assignFrom names i1 n1 c1).keys = (assignFrom names i2 n2 c2).keys := by
  induction names generalizing i1 i2 c1 c2 with
  | nil => exact h
  | cons s rest ih =>
    rw [assignFrom, assignFrom]
    apply ih
    rw [Context.keys_set, Context.keys_set, h]

theorem assignFrom_nodup_keys (names : List String) (index : Nat) (n : Int)
    (context : Context) (h : context.keys.Nodup) :
    (assignFrom names index n context).keys.Nodup := by
  induction names generalizing index context with
  | nil => exact h
  | cons s rest ih =>
    rw [assignFrom]
    exact ih _ _ (Context.nodup_keys_set context s _ h)

theorem assignFrom_mem_keys (names : List String) (index : Nat) (n : Int)
    (context : Context) (key : String) :
    key ∈ (assignFrom names index n context).keys ↔ key ∈ names ∨ key ∈ context.keys := by
  constructor
  · intro hk
    by_cases hmem : key ∈ names
    · exact Or.inl hmem
    · right
      have := (Context.get_isSome_iff_mem_keys _ key).mpr hk
      rw [assignFrom_get_of_not_mem names index n context key hmem] at this
      exact (Context.get_isSome_iff_mem_keys _ key).mp this
  · intro hk
    apply (Context.get_isSome_iff_mem_keys _ key).mp
    apply assignFrom_isSome
    rcases hk with h | h
    · exact Or.inl h
    · exact Or.inr ((Context.get_isSome_iff_mem_keys _ key).mpr h)

/-- The value that the inner loop leaves at one of its names does not depend
on the map it started from. -/
theorem assignFrom_get_congr (names : List String) (index : Nat) (n : Int)
    (c1 c2 : Context) (key : String) (hkey : key ∈ names) :
    (assignFrom names index n c1).get key = (assignFrom names index n c2).get key := by
  induction names generalizing index c1 c2 with
  | nil => cases hkey
  | cons s rest ih =>
    rw [assignFrom, assignFrom]
    by_cases hmem : key ∈ rest
    · exact ih _ _ _ hmem
    · have hks : key = s := by
        rcases List.mem_cons.mp hkey with h | h
        · exact h
        · exact absurd h hmem
      rw [assignFrom_get_of_not_mem _ _ _ _ _ hmem, assignFrom_get_of_not_mem _ _ _ _ _ hmem,
        Context.get_set, Context.get_set, if_pos hks, if_pos hks]

/-- The map that the inner loop builds for a counter value on top of the map
of an earlier row is the map it builds from the empty map. -/
theorem assignFrom_over_earlier (names : List String) (m n : Int) :
    assignFrom names 0 n (assignFrom names 0 m []) = assignFrom names 0 n [] := by
  have hsub : ∀ s ∈ names, s ∈ (assignFrom names 0 m []).keys :=
    fun s hs => (assignFrom_mem_keys names 0 m [] s).mpr (Or.inl hs)
  have hkeys1 := assignFrom_keys_of_subset names 0 n (assignFrom names 0 m []) hsub
  apply Context.ext_of_keys
  · rw [hkeys1]
    exact assignFrom_keys_congr names 0 0 m n [] [] rfl
  · rw [hkeys1]
    exact assignFrom_nodup_keys names 0 m [] (by simp [Context.keys])
  · intro k hk
    rw [hkeys1] at hk
    have hmem : k ∈ names := by
      rcases (assignFrom_mem_keys names 0 m [] k).mp hk with h | h
      · exact h
      · simp [Context.keys] at h
    exact assignFrom_get_congr names 0 n _ _ k hmem

/-- Every row of the loop, whether or not the loop runs to its end, holds the
map built from the empty map for its counter value, provided the map the loop
starts from is empty or is such a map. -/
theorem rowsFrom_context (ast : Node) (names : List String) (steps : Nat) (n : Int)
    (context : Context)
    (hstart : ∀ k : Int, assignFrom names 0 k context = assignFrom names 0 k [])
    (i : Nat) (row : Row) (hrow : (rowsFrom ast names steps n context).get? i = some row) :
    row.context = assignFrom names 0 (n + i) [] ∧ row.eval = ast.evaluate row.context := by
  induction steps generalizing n context i with
  | zero => simp [rowsFrom] at hrow
  | succ s ih =>
    have hnext : ∀ k : Int, assignFrom names 0 k (assignFrom names 0 n context)
        = assignFrom names 0 k [] := by
      intro k
      rw [hstart n]
      exact assignFrom_over_earlier names n k
    simp only [rowsFrom] at hrow
    cases hres : (ast.evaluate (assignFrom names 0 n context)).res with
    | stopped e =>
      rw [hres] at hrow
      cases i with
      | zero =>
        simp only [List.get?_cons_zero, Option.some.injEq] at hrow
        subst hrow
        simp [hstart n]
      | succ j => simp at hrow
    | returned b =>
      rw [hres] at hrow
      cases i with
      | zero =>
        simp only [List.get?_cons_zero, Option.some.injEq] at hrow
        subst hrow
        simp [hstart n]
      | succ j =>
        rw [List.get?_cons_succ] at hrow
        have := ih (n + 1) (assignFrom names 0 n context) hnext j hrow
        have hcast : n + 1 + (j : Int) = n + ((j + 1 : Nat) : Int) := by push_cast; ring
        rw [hcast] at this
        exact this

/-- With 63 names or more the loop bound `1 << len(symbols)` is not positive,
so the loop body never runs. -/
theorem loopBound_toNat_of_ge (names : List String) (hlen : 63 ≤ names.length) :
    (loopBound names).toNat = 0 := by
  have hle : loopBound names ≤ 0 := by
    unfold loopBound shiftLeftOne wrapInt
    rcases Nat.eq_or_lt_of_le hlen with h | h
    · rw [← h]
      decide
    · have hsplit : (2 : Int) ^ names.length = 2 ^ 64 * 2 ^ (names.length - 64) := by
        rw [← pow_add]
        congr 1
        omega
      rw [hsplit, Int.add_comm, Int.add_mul_emod_self_left]
      decide
  exact Int.toNat_eq_zero.mpr hle

/-- A row of `main` exists only for a list of at most 62 names. -/
theorem length_le_of_mainRows_get (ast : Node) (names : List String) (i : Nat) (row : Row)
    (hrow : (mainRows ast names).get? i = some row) : names.length ≤ 62 := by
  by_contra hcon
  have hzero := loopBound_toNat_of_ge names (by omega)
  rw [mainRows, hzero] at hrow
  simp [rowsFrom] at hrow

/-! ## Claims -/

/-- C1: on a tree built only from Symbol, True, False, Not, Implication, And
and Or nodes with one child under every Not and two under every Implication,
And and Or, and under a context that binds every symbol name of the tree,
`evaluate` does not stop: it returns the standard propositional truth value
of the formula under the context. -/
theorem evaluate_wellFormed_eq_truthValue (context : Context) (n : Node)
    (hwf : n.wellFormed = true) (hb : n.boundIn context) :
    (n.evaluate context).res = .returned (truthValue context n) := by
  revert hwf hb
  refine Node.induct (P := fun n => n.wellFormed = true → n.boundIn context →
    (n.evaluate context).res = .returned (truthValue context n)) ?_ n
  intro token name nodes ih hwf hb
  simp only [Node.wellFormed, Bool.and_eq_true, Bool.or_eq_true, decide_eq_true_eq] at hwf
  obtain ⟨hkind, hall⟩ := hwf
  have hwfc := allWellFormed_mem hall
  have hbc := Node.boundIn_child hb
  rcases hkind with (((hs | ht) | hf) | ⟨hn, hlen⟩) | ⟨hbin, hlen⟩
  · subst hs
    obtain ⟨v, hv⟩ := Option.isSome_iff_exists.mp (hb name (by simp [Node.symbolNames]))
    rw [evaluate_symbol]
    unfold truthValue
    simp [hv]
  · subst ht
    unfold truthValue
    simp [Node.evaluate, TRUE, SYMBOL]
  · subst hf
    unfold truthValue
    simp [Node.evaluate, TRUE, SYMBOL, FALSE]
  · subst hn
    obtain ⟨p, rfl⟩ := List.length_eq_one.mp hlen
    have hp := ih p (by simp) (hwfc p (by simp)) (hbc p (by simp))
    rw [not_res context name p _ hp]
    simp [truthValue, NOT, SYMBOL, TRUE, FALSE]
  · obtain ⟨p, q, rfl⟩ := List.length_eq_two.mp hlen
    have hp := ih p (by simp) (hwfc p (by simp)) (hbc p (by simp))
    have hq := ih q (by simp) (hwfc q (by simp)) (hbc q (by simp))
    rcases hbin with (hi | ha) | ho
    · subst hi
      rw [implication_res context name p q _ _ hp hq]
      simp [truthValue, NOT, SYMBOL, TRUE, FALSE, IMPLICATION]
    · subst ha
      rw [and_res context name p q _ _ hp hq]
      simp [truthValue, NOT, SYMBOL, TRUE, FALSE, IMPLICATION, AND]
    · subst ho
      rw [or_res context name p q _ _ hp hq]
      simp [truthValue, NOT, SYMBOL, TRUE, FALSE, IMPLICATION, AND, OR]

/-- C1, at the tree of `main` under `p = true`, `q = false`. -/
theorem evaluate_wellFormed_eq_truthValue_witness :
    astExample.wellFormed = true ∧ astExample.boundIn [("p", true), ("q", false)] ∧
      (astExample.evaluate [("p", true), ("q", false)]).res
        = .returned (truthValue [("p", true), ("q", false)] astExample) :=
  ⟨by decide, by decide,
    evaluate_wellFormed_eq_truthValue [("p", true), ("q", false)] astExample
      (by decide) (by decide)⟩

/-- C2: when the two children `p` and `q` evaluate to `a` and `b` under a
context, the Implication node with children `[p, q]` evaluates to
`(not a) or b` under that context. -/
theorem evaluate_implication_returns (context : Context) (name : String) (p q : Node)
    (a b : Bool) (hp : (p.evaluate context).res = .returned a)
    (hq : (q.evaluate context).res = .returned b) :
    (Node.evaluate ⟨IMPLICATION, name, [p, q]⟩ context).res = .returned (!a || b) :=
  implication_res context name p q a b hp hq

/-- C2, at `True => False`. -/
theorem evaluate_implication_returns_witness :
    (Node.evaluate ⟨TRUE, "1", []⟩ []).res = .returned true ∧
      (Node.evaluate ⟨FALSE, "0", []⟩ []).res = .returned false ∧
      (Node.evaluate ⟨IMPLICATION, "1 => 0", [⟨TRUE, "1", []⟩, ⟨FALSE, "0", []⟩]⟩ []).res
        = .returned (!true || false) :=
  ⟨by decide, by decide,
    evaluate_implication_returns [] "1 => 0" ⟨TRUE, "1", []⟩ ⟨FALSE, "0", []⟩ true false
      (by decide) (by decide)⟩

/-- C3: when the children `p` and `q` evaluate to `a` and `b` under a
context, And[p, q] evaluates to `a and b`, Or[p, q] to `a or b` and Not[p] to
`not a`. -/
theorem evaluate_and_or_not_returns (context : Context) (name : String) (p q : Node)
    (a b : Bool) (hp : (p.evaluate context).res = .returned a)
    (hq : (q.evaluate context).res = .returned b) :
    (Node.evaluate ⟨AND, name, [p, q]⟩ context).res = .returned (a && b) ∧
      (Node.evaluate ⟨OR, name, [p, q]⟩ context).res = .returned (a || b) ∧
      (Node.evaluate ⟨NOT, name, [p]⟩ context).res = .returned (!a) :=
  ⟨and_res context name p q a b hp hq, or_res context name p q a b hp hq,
    not_res context name p a hp⟩

/-- C3, at the children `q` (false) and `p` (true) under `p = true`, `q = false`. -/
theorem evaluate_and_or_not_returns_witness :
    (Node.evaluate ⟨SYMBOL, "q", []⟩ [("p", true), ("q", false)]).res = .returned false ∧
      (Node.evaluate ⟨SYMBOL, "p", []⟩ [("p", true), ("q", false)]).res = .returned true ∧
      (Node.evaluate ⟨AND, "q ^ p", [⟨SYMBOL, "q", []⟩, ⟨SYMBOL, "p", []⟩]⟩
          [("p", true), ("q", false)]).res = .returned (false && true) ∧
      (Node.evaluate ⟨OR, "q ^ p", [⟨SYMBOL, "q", []⟩, ⟨SYMBOL, "p", []⟩]⟩
          [("p", true), ("q", false)]).res = .returned (false || true) ∧
      (Node.evaluate ⟨NOT, "q ^ p", [⟨SYMBOL, "q", []⟩]⟩
          [("p", true), ("q", false)]).res = .returned (!false) :=
  ⟨by decide, by decide,
    evaluate_and_or_not_returns [("p", true), ("q", false)] "q ^ p" ⟨SYMBOL, "q", []⟩
      ⟨SYMBOL, "p", []⟩ false true (by decide) (by decide)⟩

/-- C4: a Symbol node whose name is a key of the context evaluates to the
value bound to that name, and its evaluation stops with the symbol-not-found
failure exactly when the name is not a key of the context; it stops in no
other way. -/
theorem evaluate_symbol_bound_iff (name : String) (nodes : List Node) (context : Context) :
    (name ∈ context.keys → ∃ v, context.get name = some v ∧
        Node.evaluate ⟨SYMBOL, name, nodes⟩ context = Eval.ret v) ∧
      ((Node.evaluate ⟨SYMBOL, name, nodes⟩ context).res = .stopped (.symbolNotFound name)
        ↔ name ∉ context.keys) ∧
      (∀ f, (Node.evaluate ⟨SYMBOL, name, nodes⟩ context).res = .stopped f →
        f = .symbolNotFound name) := by
  rw [evaluate_symbol]
  cases hget : context.get name with
  | none =>
    have hk : name ∉ context.keys := by
      intro hmem
      have := (Context.get_isSome_iff_mem_keys context name).mpr hmem
      simp [hget] at this
    refine ⟨fun h => absurd h hk, ?_, ?_⟩
    · simp [hk]
    · intro f hf
      simpa using hf.symm
  | some v =>
    have hk : name ∈ context.keys :=
      (Context.get_isSome_iff_mem_keys context name).mp (by simp [hget])
    refine ⟨fun _ => ⟨v, rfl, rfl⟩, ?_, ?_⟩
    · simp [hk]
    · intro f hf
      simp at hf

/-- C4, at the symbol `p` under `p = true`, `q = false` (bound) and under
the empty context (not bound). -/
theorem evaluate_symbol_bound_iff_witness :
    (∃ v, Context.get [("p", true), ("q", false)] "p" = some v ∧
        Node.evaluate ⟨SYMBOL, "p", []⟩ [("p", true), ("q", false)] = Eval.ret v) ∧
      (Node.evaluate ⟨SYMBOL, "p", []⟩ []).res = .stopped (.symbolNotFound "p") :=
  ⟨(evaluate_symbol_bound_iff "p" [] [("p", true), ("q", false)]).1 (by decide),
    (evaluate_symbol_bound_iff "p" [] []).2.1.mpr (by decide)⟩

/-- C5 at 64 and at 63 distinct names: the loop bound `1 << len(symbols)` is
`0` for 64 names and negative for 63, so `main` produces no row at all where
the enumeration should have `2 ^ 64` and `2 ^ 63` rows. -/
theorem mainRows_many_names_empty :
    (variableNames 64).Nodup ∧ (variableNames 64).length = 64 ∧
      loopBound (variableNames 64) = 0 ∧
      mainRows ⟨TRUE, "1", []⟩ (variableNames 64) = [] ∧
      (variableNames 63).Nodup ∧ (variableNames 63).length = 63 ∧
      loopBound (variableNames 63) = -9223372036854775808 ∧
      mainRows ⟨TRUE, "1", []⟩ (variableNames 63) = [] := by
  decide

/-- C6 as stated fails: the four rows of `main` on `p => q` over `[p, q]` are
not, in this order, `p=false q=false -> true`, `p=false q=true -> true`,
`p=true q=false -> false` with the diagnostic, `p=true q=true -> true`. -/
theorem mainRows_astExample_not_as_claimed :
    (mainRows astExample symbols).map
        (fun r => (r.context.get "p", r.context.get "q", r.eval)) ≠
      [(some false, some false, ⟨[], .returned true⟩),
        (some false, some true, ⟨[], .returned true⟩),
        (some true, some false,
          ⟨["Failed implication \"p(true) => q(false)\"\n"], .returned false⟩),
        (some true, some true, ⟨[], .returned true⟩)] := by
  decide

/-- C6, amended: `main` on `p => q` over `[p, q]` produces four rows, in this
order: row 0 `p=false q=false -> true`; row 1 `p=true q=false -> false`,
with the failed-implication diagnostic naming `p` and `q`; row 2
`p=false q=true -> true`; row 3 `p=true q=true -> true`. -/
theorem mainRows_astExample :
    mainRows astExample symbols =
      [⟨[("p", false), ("q", false)], ⟨[], .returned true⟩⟩,
        ⟨[("p", true), ("q", false)],
          ⟨["Failed implication \"p(true) => q(false)\"\n"], .returned false⟩⟩,
        ⟨[("p", false), ("q", true)], ⟨[], .returned true⟩⟩,
        ⟨[("p", true), ("q", true)], ⟨[], .returned true⟩⟩] := by
  decide

/-- C7: under every context that binds `p` and `k`, And[p, Or[p, k]]
evaluates to the value bound to `p`, whatever the value bound to `k`, and
prints nothing. -/
theorem evaluate_and_or_absorb (context : Context) (a b : Bool) (nameAnd nameOr : String)
    (hp : context.get "p" = some a) (hk : context.get "k" = some b) :
    Node.evaluate ⟨AND, nameAnd,
        [⟨SYMBOL, "p", []⟩, ⟨OR, nameOr, [⟨SYMBOL, "p", []⟩, ⟨SYMBOL, "k", []⟩]⟩]⟩ context
      = Eval.ret a := by
  rw [evaluate_and, evaluate_or, evaluate_symbol, evaluate_symbol, hp, hk]
  cases a <;> cases b <;> rfl

/-- C7, at the four rows of the table over `p` and `k`. -/
theorem evaluate_and_or_absorb_witness :
    (Node.evaluate ⟨AND, "p AND (p OR k)",
        [⟨SYMBOL, "p", []⟩, ⟨OR, "p OR k", [⟨SYMBOL, "p", []⟩, ⟨SYMBOL, "k", []⟩]⟩]⟩
        [("p", false), ("k", false)] = Eval.ret false) ∧
      (Node.evaluate ⟨AND, "p AND (p OR k)",
        [⟨SYMBOL, "p", []⟩, ⟨OR, "p OR k", [⟨SYMBOL, "p", []⟩, ⟨SYMBOL, "k", []⟩]⟩]⟩
        [("p", false), ("k", true)] = Eval.ret false) ∧
      (Node.evaluate ⟨AND, "p AND (p OR k)",
        [⟨SYMBOL, "p", []⟩, ⟨OR, "p OR k", [⟨SYMBOL, "p", []⟩, ⟨SYMBOL, "k", []⟩]⟩]⟩
        [("p", true), ("k", false)] = Eval.ret true) ∧
      (Node.evaluate ⟨AND, "p AND (p OR k)",
        [⟨SYMBOL, "p", []⟩, ⟨OR, "p OR k", [⟨SYMBOL, "p", []⟩, ⟨SYMBOL, "k", []⟩]⟩]⟩
        [("p", true), ("k", true)] = Eval.ret true) :=
  ⟨evaluate_and_or_absorb [("p", false), ("k", false)] false false _ _ (by decide) (by decide),
    evaluate_and_or_absorb [("p", false), ("k", true)] false true _ _ (by decide) (by decide),
    evaluate_and_or_absorb [("p", true), ("k", false)] true false _ _ (by decide) (by decide),
    evaluate_and_or_absorb [("p", true), ("k", true)] true true _ _ (by decide) (by decide)⟩

/-- C8: with no symbols the loop of `main` produces exactly one row, whose
context is the empty map; for the tree Not[True] that row has the result
`false` and prints no diagnostic. -/
theorem mainRows_no_symbols (ast : Node) (name nameTrue : String) :
    mainRows ast [] = [⟨[], ast.evaluate []⟩] ∧
      mainRows ⟨NOT, name, [⟨TRUE, nameTrue, []⟩]⟩ [] = [⟨[], ⟨[], .returned false⟩⟩] := by
  have h : ∀ t : Node, mainRows t [] = [⟨[], t.evaluate []⟩] := by
    intro t
    have hb : (loopBound []).toNat = 1 := by decide
    rw [mainRows, hb]
    simp only [rowsFrom, assignFrom]
    cases (t.evaluate []).res <;> rfl
  refine ⟨h ast, ?_⟩
  rw [h, evaluate_not]
  simp [Node.evaluate, Eval.andThen, Eval.ret, TRUE, SYMBOL]

/-- C9: under every context, a Not node whose number of children is not 1
stops with the arity failure of Not, and an And, Or or Implication node whose
number of children is not 2 stops with the arity failure of its kind; nothing
is printed and the outcome does not depend on the children, none of which is
evaluated. -/
theorem evaluate_wrong_arity (context : Context) (name : String) (nodes : List Node) :
    (nodes.length ≠ 1 → Node.evaluate ⟨NOT, name, nodes⟩ context = Eval.stop .notArity) ∧
      (nodes.length ≠ 2 →
        Node.evaluate ⟨AND, name, nodes⟩ context = Eval.stop .andArity ∧
        Node.evaluate ⟨OR, name, nodes⟩ context = Eval.stop .orArity ∧
        Node.evaluate ⟨IMPLICATION, name, nodes⟩ context = Eval.stop .implicationArity) := by
  refine ⟨fun h => ?_, fun h => ⟨?_, ?_, ?_⟩⟩ <;>
    simp [Node.evaluate, h, NOT, AND, OR, IMPLICATION, SYMBOL, TRUE, FALSE]

/-- C9, at a node without children and at a node with three children, the
first of which would itself stop. -/
theorem evaluate_wrong_arity_witness :
    Node.evaluate ⟨NOT, "~", []⟩ [] = Eval.stop .notArity ∧
      (Node.evaluate ⟨AND, "^", [⟨SYMBOL, "p", []⟩, ⟨TRUE, "1", []⟩, ⟨FALSE, "0", []⟩]⟩ []
          = Eval.stop .andArity ∧
        Node.evaluate ⟨OR, "^", [⟨SYMBOL, "p", []⟩, ⟨TRUE, "1", []⟩, ⟨FALSE, "0", []⟩]⟩ []
          = Eval.stop .orArity ∧
        Node.evaluate
            ⟨IMPLICATION, "^", [⟨SYMBOL, "p", []⟩, ⟨TRUE, "1", []⟩, ⟨FALSE, "0", []⟩]⟩ []
          = Eval.stop .implicationArity) :=
  ⟨(evaluate_wrong_arity [] "~" []).1 (by decide),
    (evaluate_wrong_arity [] "^" [⟨SYMBOL, "p", []⟩, ⟨TRUE, "1", []⟩, ⟨FALSE, "0", []⟩]).2
      (by decide)⟩

/-- C10 as stated fails: evaluating the Nor node over `p` and `q` under
`p = false`, `q = false` does not stop with any failure. -/
theorem evaluate_nor_does_not_stop :
    ¬ ∃ f, (Node.evaluate ⟨NOR, "p NOR q", [⟨SYMBOL, "p", []⟩, ⟨SYMBOL, "q", []⟩]⟩
      [("p", false), ("q", false)]).res = .stopped f := by
  rintro ⟨f, hf⟩
  have hres : (Node.evaluate ⟨NOR, "p NOR q", [⟨SYMBOL, "p", []⟩, ⟨SYMBOL, "q", []⟩]⟩
      [("p", false), ("q", false)]).res = .returned false := by decide
  rw [hres] at hf
  cases hf

/-- C10, amended: under every context and for every list of children, a node
whose kind has no case in the `switch` of `evaluate` (Nor, Nand, Xor, ILLEGAL,
EOF, WS or any other token value) does not stop: `evaluate` returns `false`. -/
theorem evaluate_other_kind_returns_false (context : Context) (token : Token)
    (name : String) (nodes : List Node)
    (h : token ≠ SYMBOL ∧ token ≠ TRUE ∧ token ≠ FALSE ∧ token ≠ NOT ∧
      token ≠ IMPLICATION ∧ token ≠ OR ∧ token ≠ AND) :
    (Node.evaluate ⟨token, name, nodes⟩ context).res = .returned false := by
  obtain ⟨h1, h2, h3, h4, h5, h6, h7⟩ := h
  simp [Node.evaluate, h1, h2, h3, h4, h5, h6, h7]

/-- C10, amended, at the Nor node over `p` and `q`. -/
theorem evaluate_other_kind_returns_false_witness :
    (NOR ≠ SYMBOL ∧ NOR ≠ TRUE ∧ NOR ≠ FALSE ∧ NOR ≠ NOT ∧
      NOR ≠ IMPLICATION ∧ NOR ≠ OR ∧ NOR ≠ AND) ∧
      (Node.evaluate ⟨NOR, "p NOR q", [⟨SYMBOL, "p", []⟩, ⟨SYMBOL, "q", []⟩]⟩
        [("p", false), ("q", false)]).res = .returned false :=
  ⟨by decide,
    evaluate_other_kind_returns_false [("p", false), ("q", false)] NOR "p NOR q"
      [⟨SYMBOL, "p", []⟩, ⟨SYMBOL, "q", []⟩] (by decide)⟩

/-- C11 on `main` itself (`p => q` over `[p, q]`): the `name=value` fields of
a row are printed in the order in which `range` visits the map, which Go
leaves unspecified. When the map is visited in reverse insertion order, which
is a visit of exactly its entries, every row prints `q` before `p`; when it is
visited in insertion order, every row prints `p` before `q`. So the fields
need not appear in the declared order and the line of a row is not determined
by the tree and the list of names. -/
theorem mainOutput_depends_on_visit :
    (∀ c : Context, (List.reverse c).Perm c) ∧
      mainOutput List.reverse astExample symbols =
        ["q=false ", "p=false ", "  \t Evaluating \"p => q\" :: true\n",
          "Failed implication \"p(true) => q(false)\"\n",
          "q=false ", "p=true ", "  \t Evaluating \"p => q\" :: false\n",
          "q=true ", "p=false ", "  \t Evaluating \"p => q\" :: true\n",
          "q=true ", "p=true ", "  \t Evaluating \"p => q\" :: true\n"] ∧
      mainOutput id astExample symbols =
        ["p=false ", "q=false ", "  \t Evaluating \"p => q\" :: true\n",
          "Failed implication \"p(true) => q(false)\"\n",
          "p=true ", "q=false ", "  \t Evaluating \"p => q\" :: false\n",
          "p=false ", "q=true ", "  \t Evaluating \"p => q\" :: true\n",
          "p=true ", "q=true ", "  \t Evaluating \"p => q\" :: true\n"] :=
  ⟨fun c => List.reverse_perm c, by decide, by decide⟩

/-- C12: for every list of names and every row `i` that `main` produces, the
map handed to `evaluate` is the map that the inner loop builds from the empty
map for the counter value `i`, although one map is reused across the rows:
its keys are exactly the declared names, and for distinct names the name at
position `k` is bound to bit `k` of `i`. -/
theorem mainRows_context_fresh (ast : Node) (names : List String) (i : Nat) (row : Row)
    (hrow : (mainRows ast names).get? i = some row) :
    row.context = assignFrom names 0 i [] ∧
      (∀ key, key ∈ row.context.keys ↔ key ∈ names) ∧
      (names.Nodup → ∀ k (hk : k < names.length),
        row.context.get (names.get ⟨k, hk⟩) = some (i.testBit k)) := by
  have hlen := length_le_of_mainRows_get ast names i row hrow
  obtain ⟨hctx, -⟩ := rowsFrom_context ast names _ 0 [] (fun _ => rfl) i row hrow
  rw [Int.zero_add] at hctx
  refine ⟨hctx, ?_, ?_⟩
  · intro key
    rw [hctx, assignFrom_mem_keys]
    simp [Context.keys]
  · intro hnodup k hk
    rw [hctx, assignFrom_get names hnodup 0 i [] k hk, Nat.zero_add,
      bitSet_eq_testBit i (by omega)]

/-- C12, at row 2 of `main` on `p => q` over `[p, q]`, which follows a row
with `p = true`. -/
theorem mainRows_context_fresh_witness :
    (mainRows astExample symbols).get? 2
        = some ⟨[("p", false), ("q", true)], ⟨[], .returned true⟩⟩ ∧
      ([("p", false), ("q", true)] : Context) = assignFrom symbols 0 2 [] ∧
      (∀ key, key ∈ Context.keys [("p", false), ("q", true)] ↔ key ∈ symbols) ∧
      (symbols.Nodup → ∀ k (hk : k < symbols.length),
        Context.get [("p", false), ("q", true)] (symbols.get ⟨k, hk⟩)
          = some (Nat.testBit 2 k)) :=
  ⟨by decide,
    mainRows_context_fresh astExample symbols 2
      ⟨[("p", false), ("q", true)], ⟨[], .returned true⟩⟩ (by decide)⟩

/-- C13: when `p` evaluates to `false` under a context, Implication[p, q]
returns `true` for every node `q`, also one whose own evaluation would stop,
and prints nothing beyond what the evaluation of `p` printed: `q` is not
evaluated and no failed-implication line is emitted by the node. -/
theorem evaluate_implication_false_antecedent (context : Context) (name : String)
    (p q : Node) (hp : (p.evaluate context).res = .returned false) :
    Node.evaluate ⟨IMPLICATION, name, [p, q]⟩ context
      = ⟨(p.evaluate context).out, .returned true⟩ := by
  rw [evaluate_implication, Eval.andThen_returned _ _ false hp]
  simp

/-- C13, at `0 => q` with `q` not bound and at `0 => ~` with a Not node of
the wrong arity. -/
theorem evaluate_implication_false_antecedent_witness :
    (Node.evaluate ⟨FALSE, "0", []⟩ []).res = .returned false ∧
      (Node.evaluate ⟨SYMBOL, "q", []⟩ []).res = .stopped (.symbolNotFound "q") ∧
      (Node.evaluate ⟨NOT, "~", []⟩ []).res = .stopped .notArity ∧
      Node.evaluate ⟨IMPLICATION, "0 => q", [⟨FALSE, "0", []⟩, ⟨SYMBOL, "q", []⟩]⟩ []
        = ⟨(Node.evaluate ⟨FALSE, "0", []⟩ []).out, .returned true⟩ ∧
      Node.evaluate ⟨IMPLICATION, "0 => ~", [⟨FALSE, "0", []⟩, ⟨NOT, "~", []⟩]⟩ []
        = ⟨(Node.evaluate ⟨FALSE, "0", []⟩ []).out, .returned true⟩ :=
  ⟨by decide, by decide, by decide,
    evaluate_implication_false_antecedent [] "0 => q" ⟨FALSE, "0", []⟩ ⟨SYMBOL, "q", []⟩
      (by decide),
    evaluate_implication_false_antecedent [] "0 => ~" ⟨FALSE, "0", []⟩ ⟨NOT, "~", []⟩
      (by decide)⟩

/-- C14 as stated fails: the second child of `1 OR q` stops under the empty
context (`q` is not bound), and so does the second child of `0 AND q`, yet
the Or node returns `true` and the And node returns `false`. -/
theorem evaluate_or_and_skip_second_child :
    (Node.evaluate ⟨SYMBOL, "q", []⟩ []).res = .stopped (.symbolNotFound "q") ∧
      Node.evaluate ⟨OR, "1 OR q", [⟨TRUE, "1", []⟩, ⟨SYMBOL, "q", []⟩]⟩ []
        = ⟨[], .returned true⟩ ∧
      Node.evaluate ⟨AND, "0 AND q", [⟨FALSE, "0", []⟩, ⟨SYMBOL, "q", []⟩]⟩ []
        = ⟨[], .returned false⟩ := by
  decide

/-- C14, amended: an And or Or node with two children stops when its first
child stops; it stops when the first child returns the value that does not
decide the result (`true` for And, `false` for Or) and the second child
stops; and when the first child returns the deciding value (`false` for And,
`true` for Or) the second child is not evaluated and the node returns that
value, whatever the second child is. -/
theorem evaluate_and_or_failure (context : Context) (name : String) (p q : Node) :
    (∀ f, (p.evaluate context).res = .stopped f →
        (Node.evaluate ⟨AND, name, [p, q]⟩ context).res = .stopped f ∧
        (Node.evaluate ⟨OR, name, [p, q]⟩ context).res = .stopped f) ∧
      (∀ f, (p.evaluate context).res = .returned true →
        (q.evaluate context).res = .stopped f →
        (Node.evaluate ⟨AND, name, [p, q]⟩ context).res = .stopped f) ∧
      (∀ f, (p.evaluate context).res = .returned false →
        (q.evaluate context).res = .stopped f →
        (Node.evaluate ⟨OR, name, [p, q]⟩ context).res = .stopped f) ∧
      ((p.evaluate context).res = .returned false →
        Node.evaluate ⟨AND, name, [p, q]⟩ context
          = ⟨(p.evaluate context).out, .returned false⟩) ∧
      ((p.evaluate context).res = .returned true →
        Node.evaluate ⟨OR, name, [p, q]⟩ context
          = ⟨(p.evaluate context).out, .returned true⟩) := by
  refine ⟨fun f hp => ⟨?_, ?_⟩, fun f hp hq => ?_, fun f hp hq => ?_, fun hp => ?_,
    fun hp => ?_⟩
  · rw [evaluate_and, Eval.andThen_stopped _ _ f hp]
  · rw [evaluate_or, Eval.andThen_stopped _ _ f hp]
  · rw [evaluate_and, Eval.andThen_returned _ _ true hp]
    simpa using hq
  · rw [evaluate_or, Eval.andThen_returned _ _ false hp]
    simpa using hq
  · rw [evaluate_and, Eval.andThen_returned _ _ false hp]
    simp
  · rw [evaluate_or, Eval.andThen_returned _ _ true hp]
    simp

/-- C14, amended, at the children `q` (not bound) and `1`, `0`. -/
theorem evaluate_and_or_failure_witness :
    ((Node.evaluate ⟨AND, "q AND 1", [⟨SYMBOL, "q", []⟩, ⟨TRUE, "1", []⟩]⟩ []).res
          = .stopped (.symbolNotFound "q") ∧
        (Node.evaluate ⟨OR, "q AND 1", [⟨SYMBOL, "q", []⟩, ⟨TRUE, "1", []⟩]⟩ []).res
          = .stopped (.symbolNotFound "q")) ∧
      (Node.evaluate ⟨AND, "1 AND q", [⟨TRUE, "1", []⟩, ⟨SYMBOL, "q", []⟩]⟩ []).res
        = .stopped (.symbolNotFound "q") ∧
      (Node.evaluate ⟨OR, "0 OR q", [⟨FALSE, "0", []⟩, ⟨SYMBOL, "q", []⟩]⟩ []).res
        = .stopped (.symbolNotFound "q") ∧
      Node.evaluate ⟨AND, "0 AND q", [⟨FALSE, "0", []⟩, ⟨SYMBOL, "q", []⟩]⟩ []
        = ⟨(Node.evaluate ⟨FALSE, "0", []⟩ []).out, .returned false⟩ ∧
      Node.evaluate ⟨OR, "1 OR q", [⟨TRUE, "1", []⟩, ⟨SYMBOL, "q", []⟩]⟩ []
        = ⟨(Node.evaluate ⟨TRUE, "1", []⟩ []).out, .returned true⟩ :=
  ⟨(evaluate_and_or_failure [] "q AND 1" ⟨SYMBOL, "q", []⟩ ⟨TRUE, "1", []⟩).1
      (.symbolNotFound "q") (by decide),
    (evaluate_and_or_failure [] "1 AND q" ⟨TRUE, "1", []⟩ ⟨SYMBOL, "q", []⟩).2.1
      (.symbolNotFound "q") (by decide) (by decide),
    (evaluate_and_or_failure [] "0 OR q" ⟨FALSE, "0", []⟩ ⟨SYMBOL, "q", []⟩).2.2.1
      (.symbolNotFound "q") (by decide) (by decide),
    (evaluate_and_or_failure [] "0 AND q" ⟨FALSE, "0", []⟩ ⟨SYMBOL, "q", []⟩).2.2.2.1
      (by decide),
    (evaluate_and_or_failure [] "1 OR q" ⟨TRUE, "1", []⟩ ⟨SYMBOL, "q", []⟩).2.2.2.2
      (by decide)⟩

/-- C15: for an Implication node whose two children `p` and `q` evaluate to
`a` and `b` under a context without printing anything themselves, the node
prints a failed-implication line exactly when `a` is true and `b` is false;
what it prints then is the one line naming the labels of `p` and `q` with the
values `true` and `false`; it returns `(not a) or b`; and it ends exactly as
the evaluator with the reporting removed does. -/
theorem evaluate_implication_diagnostic (context : Context) (name : String) (p q : Node)
    (a b : Bool) (hp : p.evaluate context = ⟨[], .returned a⟩)
    (hq : q.evaluate context = ⟨[], .returned b⟩) :
    Node.evaluate ⟨IMPLICATION, name, [p, q]⟩ context
        = ⟨if a = true ∧ b = false then [failedImplication p.name true q.name false] else [],
            .returned (!a || b)⟩ ∧
      (Node.evaluate ⟨IMPLICATION, name, [p, q]⟩ context).res
        = (Node.evaluateQuiet ⟨IMPLICATION, name, [p, q]⟩ context).res := by
  refine ⟨?_, evaluate_res_eq_quiet _ context⟩
  rw [evaluate_implication, hp, hq]
  cases a <;> cases b <;> rfl

/-- C15, at `p => q` under the four assignments of `p` and `q`. -/
theorem evaluate_implication_diagnostic_witness :
    astExample.evaluate [("p", true), ("q", false)]
        = ⟨["Failed implication \"p(true) => q(false)\"\n"], .returned false⟩ ∧
      astExample.evaluate [("p", true), ("q", true)] = ⟨[], .returned true⟩ ∧
      astExample.evaluate [("p", false), ("q", false)] = ⟨[], .returned true⟩ ∧
      astExample.evaluate [("p", false), ("q", true)] = ⟨[], .returned true⟩ ∧
      (astExample.evaluate [("p", true), ("q", false)]).res
        = (astExample.evaluateQuiet [("p", true), ("q", false)]).res :=
  ⟨(evaluate_implication_diagnostic [("p", true), ("q", false)] "p => q" ⟨SYMBOL, "p", []⟩
      ⟨SYMBOL, "q", []⟩ true false (by decide) (by decide)).1,
    (evaluate_implication_diagnostic [("p", true), ("q", true)] "p => q" ⟨SYMBOL, "p", []⟩
      ⟨SYMBOL, "q", []⟩ true true (by decide) (by decide)).1,
    (evaluate_implication_diagnostic [("p", false), ("q", false)] "p => q" ⟨SYMBOL, "p", []⟩
      ⟨SYMBOL, "q", []⟩ false false (by decide) (by decide)).1,
    (evaluate_implication_diagnostic [("p", false), ("q", true)] "p => q" ⟨SYMBOL, "p", []⟩
      ⟨SYMBOL, "q", []⟩ false true (by decide) (by decide)).1,
    (evaluate_implication_diagnostic [("p", true), ("q", false)] "p => q" ⟨SYMBOL, "p", []⟩
      ⟨SYMBOL, "q", []⟩ true false (by decide) (by decide)).2⟩

/-- C16 as stated fails: a True node, a False node and a bound Symbol node
with a child each are evaluated without any failure. -/
theorem evaluate_leaf_with_child_returns :
    Node.evaluate ⟨TRUE, "1", [⟨SYMBOL, "q", []⟩]⟩ [("p", true)] = ⟨[], .returned true⟩ ∧
      Node.evaluate ⟨FALSE, "0", [⟨SYMBOL, "q", []⟩]⟩ [("p", true)]
        = ⟨[], .returned false⟩ ∧
      Node.evaluate ⟨SYMBOL, "p", [⟨SYMBOL, "q", []⟩]⟩ [("p", true)]
        = ⟨[], .returned true⟩ := by
  decide

/-- C16, amended: the number of children is checked only for Not,
Implication, And and Or. Under every context a True node returns `true` and
a False node returns `false` whatever children they have, and a Symbol node
with children evaluates exactly as the same Symbol node without children:
the children of the three 0-ary kinds are never looked at. -/
theorem evaluate_leaf_ignores_children (context : Context) (name : String)
    (nodes : List Node) :
    Node.evaluate ⟨TRUE, name, nodes⟩ context = Eval.ret true ∧
      Node.evaluate ⟨FALSE, name, nodes⟩ context = Eval.ret false ∧
      Node.evaluate ⟨SYMBOL, name, nodes⟩ context
        = Node.evaluate ⟨SYMBOL, name, []⟩ context := by
  refine ⟨?_, ?_, ?_⟩
  · simp [Node.evaluate, TRUE, SYMBOL]
  · simp [Node.evaluate, TRUE, SYMBOL, FALSE]
  · rw [evaluate_symbol, evaluate_symbol]

/-- C17: under every context and for every list of children, a node of kind
Nor, Nand, Xor, ILLEGAL, EOF or WS evaluates to `false`: the evaluation does
not stop, prints nothing, and is the same whatever the children are, none of
which is evaluated. -/
theorem evaluate_unsupported_kinds (context : Context) (name : String)
    (nodes : List Node) :
    Node.evaluate ⟨NOR, name, nodes⟩ context = ⟨[], .returned false⟩ ∧
      Node.evaluate ⟨NAND, name, nodes⟩ context = ⟨[], .returned false⟩ ∧
      Node.evaluate ⟨XOR, name, nodes⟩ context = ⟨[], .returned false⟩ ∧
      Node.evaluate ⟨ILLEGAL, name, nodes⟩ context = ⟨[], .returned false⟩ ∧
      Node.evaluate ⟨EOF, name, nodes⟩ context = ⟨[], .returned false⟩ ∧
      Node.evaluate ⟨WS, name, nodes⟩ context = ⟨[], .returned false⟩ := by
  refine ⟨?_, ?_, ?_, ?_, ?_, ?_⟩ <;>
    simp [Node.evaluate, NOR, NAND, XOR, ILLEGAL, EOF, WS, SYMBOL, TRUE, FALSE, NOT,
      IMPLICATION, OR, AND, Eval.ret]

/-- C18: two contexts that agree on every symbol name occurring in a tree
give the same evaluation of the tree: the same returned boolean or the same
stop, and the same printed lines. -/
theorem evaluate_congr_on_symbolNames (n : Node) (c1 c2 : Context)
    (hagree : ∀ s ∈ n.symbolNames, c1.get s = c2.get s) :
    n.evaluate c1 = n.evaluate c2 := by
  revert hagree
  refine Node.induct (P := fun n => (∀ s ∈ n.symbolNames, c1.get s = c2.get s) →
    n.evaluate c1 = n.evaluate c2) ?_ n
  intro token name nodes ih hagree
  have hch : ∀ c ∈ nodes, c.evaluate c1 = c.evaluate c2 := by
    intro c hc
    apply ih c hc
    intro s hs
    apply hagree s
    simp only [Node.symbolNames, List.mem_append]
    exact Or.inr (mem_allSymbolNames hc hs)
  have e0 := evaluateAt_congr nodes c1 c2 hch 0
  have e1 := evaluateAt_congr nodes c1 c2 hch 1
  by_cases hs : token = SYMBOL
  · have hget : c1.get name = c2.get name := hagree name (by simp [Node.symbolNames, hs])
    simp only [Node.evaluate, hs, if_true, hget]
  · simp only [Node.evaluate, hs, if_false, e0, e1]

/-- C18, at `p => q` under two contexts that differ only on the name `k`. -/
theorem evaluate_congr_on_symbolNames_witness :
    (∀ s ∈ astExample.symbolNames,
        Context.get [("p", true), ("q", false), ("k", true)] s
          = Context.get [("k", false), ("q", false), ("p", true)] s) ∧
      astExample.evaluate [("p", true), ("q", false), ("k", true)]
        = astExample.evaluate [("k", false), ("q", false), ("p", true)] :=
  ⟨by decide,
    evaluate_congr_on_symbolNames astExample [("p", true), ("q", false), ("k", true)]
      [("k", false), ("q", false), ("p", true)] (by decide)⟩

/-- C19: one call of `evaluate` on Implication[True, Implication[True, False]]
under the empty context prints the failed-implication line of the inner
implication twice and then the line of the outer implication, and returns
`false`. -/
theorem evaluate_nested_implication_prints_twice :
    Node.evaluate
        ⟨IMPLICATION, "1 => (1 => 0)",
          [⟨TRUE, "1", []⟩, ⟨IMPLICATION, "1 => 0", [⟨TRUE, "1", []⟩, ⟨FALSE, "0", []⟩]⟩]⟩ []
      = ⟨["Failed implication \"1(true) => 0(false)\"\n",
          "Failed implication \"1(true) => 0(false)\"\n",
          "Failed implication \"1(true) => 1 => 0(false)\"\n"], .returned false⟩ := by
  decide

/-- C20: for every tree and every context, the evaluation never ends in the
index-out-of-range stop: every read of `nodes[0]` or `nodes[1]` comes after
the length test of its case and is within range. -/
theorem evaluate_never_out_of_range (n : Node) (context : Context) :
    (n.evaluate context).res ≠ .stopped .indexOutOfRange := by
  refine Node.induct (P := fun n =>
    (n.evaluate context).res ≠ .stopped .indexOutOfRange) ?_ n
  intro token name nodes ih
  by_cases h1 : token = SYMBOL
  · subst h1
    rw [evaluate_symbol]
    cases context.get name <;> simp
  by_cases h2 : token = TRUE
  · subst h2
    simp [Node.evaluate, TRUE, SYMBOL]
  by_cases h3 : token = FALSE
  · subst h3
    simp [Node.evaluate, TRUE, SYMBOL, FALSE]
  by_cases h4 : token = NOT
  · subst h4
    by_cases hlen : nodes.length = 1
    · obtain ⟨p, rfl⟩ := List.length_eq_one.mp hlen
      rw [evaluate_not]
      exact Eval.andThen_inRange _ _ (ih p (by simp)) (fun a => by simp)
    · simp [Node.evaluate, hlen, NOT, SYMBOL, TRUE, FALSE]
  by_cases h5 : token = IMPLICATION
  · subst h5
    by_cases hlen : nodes.length = 2
    · obtain ⟨p, q, rfl⟩ := List.length_eq_two.mp hlen
      have hp := ih p (by simp)
      have hq := ih q (by simp)
      rw [evaluate_implication]
      refine Eval.andThen_inRange _ _ hp (fun a => ?_)
      cases a with
      | false => simp
      | true =>
        simp only [if_true]
        refine Eval.andThen_inRange _ _ hq (fun b => ?_)
        cases b with
        | true => simp
        | false =>
          simp only [Bool.false_eq_true, if_false]
          refine Eval.andThen_inRange _ _ (by simp) (fun _ => ?_)
          refine Eval.andThen_inRange _ _ hp (fun _ => ?_)
          refine Eval.andThen_inRange _ _ (by simp) (fun _ => ?_)
          refine Eval.andThen_inRange _ _ hq (fun _ => ?_)
          exact Eval.andThen_inRange _ _ (by simp [Eval.print]) (fun _ => by simp)
    · simp [Node.evaluate, hlen, NOT, SYMBOL, TRUE, FALSE, IMPLICATION]
  by_cases h6 : token = OR
  · subst h6
    by_cases hlen : nodes.length = 2
    · obtain ⟨p, q, rfl⟩ := List.length_eq_two.mp hlen
      rw [evaluate_or]
      refine Eval.andThen_inRange _ _ (ih p (by simp)) (fun a => ?_)
      cases a with
      | false => simpa using ih q (by simp)
      | true => simp
    · simp [Node.evaluate, hlen, NOT, SYMBOL, TRUE, FALSE, IMPLICATION, OR]
  by_cases h7 : token = AND
  · subst h7
    by_cases hlen : nodes.length = 2
    · obtain ⟨p, q, rfl⟩ := List.length_eq_two.mp hlen
      rw [evaluate_and]
      refine Eval.andThen_inRange _ _ (ih p (by simp)) (fun a => ?_)
      cases a with
      | false => simp
      | true => simpa using ih q (by simp)
    · simp [Node.evaluate, hlen, NOT, SYMBOL, TRUE, FALSE, IMPLICATION, OR, AND]
  simp [Node.evaluate, h1, h2, h3, h4, h5, h6, h7]

end Logox
